import Mathlib

/-!
Shallow embedding of `src/arena_hero_chooser.py` (the Arena: The Contest hero
chooser) and proofs about its draft-and-roll logic.

Modelling conventions:
* A Python `dict` from class names to hero lists is an insertion-ordered
  association list `Catalog := List (String × List String)`; `dict` lookup is
  `dictGet` (returning `none` where Python raises `KeyError`), in-place update
  of an entry's list is `dictSet`, and `del d[k]` is `del_key`.
* Each call to `random.randint(1, 20)` is modelled by `randint_1_20 r` for an
  arbitrary natural `r`; each call to `random.choice(lst)` is modelled by an
  index argument into `lst` (`lst.get? i`, with `none` where Python raises
  `IndexError` — in particular on an empty list).
* The class-level mutable state of `Team` (`_hero_file_path`,
  `_possible_heroes`, `_team_size`, `_allow_special_class`) is the `Config`
  structure; methods that mutate it return `Option PyError × Config`, where a
  `some` error models a raised exception and the returned `Config` is the state
  at the moment of the raise (the Python methods perform no class-state
  mutation before their raise points).
* The filesystem is abstracted by `isFile : String → Bool` (for
  `os.path.isfile`) and `readLines : String → List String` (iterating over the
  open file, each line carrying its trailing newline, as Python's line
  iteration yields it).
-/

namespace ArenaHeroChooser

/-- Exceptions raised by the source (`FileNotFoundError`, `PathNotSetError`,
`ValueError` from `set_team_size`, and the `IndexError`/`KeyError` family
escaping from list indexing / `random.choice` on an empty list). -/
inductive PyError
  | fileNotFound
  | pathNotSet
  | valueError
  | indexError
deriving DecidableEq, Repr

/-- `cls._possible_heroes`: a Python dict mapping a class name to the ordered
list of its still-available hero names, modelled as an insertion-ordered
association list. -/
abbrev Catalog := List (String × List String)

/-- Python `d[k]` on a dict, as an `Option` (`none` models `KeyError`). -/
def dictGet (d : Catalog) (k : String) : Option (List String) :=
  (d.find? (fun p => p.1 == k)).map Prod.snd

/-- Python `k in d` on a dict. -/
def containsKey (d : Catalog) (k : String) : Bool :=
  d.any (fun p => p.1 == k)

/-- In-place replacement of the list stored under key `k` (models mutating the
list object held by the dict entry, e.g. `d[k].remove(hero)`); dict key order
is unchanged. -/
def dictSet (d : Catalog) (k : String) (v : List String) : Catalog :=
  d.map (fun p => if p.1 == k then (p.1, v) else p)

/-- Python `del d[k]`: removes the entry for `k` (dicts hold at most one entry
per key), preserving the order of the remaining entries. -/
def del_key (d : Catalog) (k : String) : Catalog :=
  d.eraseP (fun p => p.1 == k)

/-- All hero names currently stored in the catalog, in dict order. -/
def allHeroes (d : Catalog) : List String :=
  d.flatMap Prod.snd

/-- Drop the longest suffix of characters satisfying `p`. -/
def dropTrailing (p : Char → Bool) (cs : List Char) : List Char :=
  (cs.reverse.dropWhile p).reverse

/-- Python `str.strip(chars)`: drop leading and trailing characters
satisfying `p`. -/
def pyStrip (p : Char → Bool) (cs : List Char) : List Char :=
  dropTrailing p (cs.dropWhile p)

/-- `heroes[1].strip('\n')` of the source: strip leading and trailing newline
characters (and nothing else — not general whitespace). -/
def strip_nl (s : String) : String :=
  ⟨pyStrip (fun c => c = '\n') s.data⟩

/-- Python `line.split(", ")` over the line's characters: scan left to right
for the next non-overlapping occurrence of the two-character separator `", "`,
cut there, and continue after it; a string with no occurrence is a single
segment. -/
def splitCommaSpace : List Char → List (List Char)
  | [] => [[]]
  | [c] => [[c]]
  | c1 :: c2 :: rest =>
    if c1 = ',' ∧ c2 = ' ' then [] :: splitCommaSpace rest
    else
      match splitCommaSpace (c2 :: rest) with
      | [] => [[c1]]
      | s :: ss => (c1 :: s) :: ss

/-- `line.split(", ")` of the source, segment by segment as strings. -/
def splitLine (line : String) : List String :=
  (splitCommaSpace line.data).map (fun cs => ⟨cs⟩)

/-- One iteration of the `load_heroes` loop body for a raw line (the line text
as Python's file iteration yields it, trailing newline included):
`heroes = line.split(", "); hero_name = heroes[0];
hero_class = heroes[1].strip('\n')`. `none` models the `IndexError` raised by
`heroes[1]` when the line has no `", "` delimiter. -/
def parse_line (line : String) : Option (String × String) :=
  match splitLine line with
  | hero_name :: hero_class :: _ => some (hero_name, strip_nl hero_class)
  | _ => none

/-- The `try/except KeyError` block of `load_heroes`: append the hero to its
class's list if the class is already a key, otherwise insert a fresh
single-hero list at the end (Python dicts preserve insertion order). -/
def add_hero (d : Catalog) (hero_class hero_name : String) : Catalog :=
  if containsKey d hero_class then
    d.map (fun p => if p.1 == hero_class then (p.1, p.2 ++ [hero_name]) else p)
  else
    d ++ [(hero_class, [hero_name])]

/-- The `load_heroes` loop, folding `add_hero` over the parsed
`(hero_name, hero_class)` pairs starting from the empty dict `all_heroes = {}`. -/
def build_catalog (pairs : List (String × String)) : Catalog :=
  pairs.foldl (fun d p => add_hero d p.2 p.1) []

/-- Parsing phase of `load_heroes` over the file's raw lines: `none` if any
line raises (in Python the partially built local dict is then discarded, so
the class state is unchanged); otherwise the finished catalog. -/
def parse_hero_lines (lines : List String) : Option Catalog :=
  (lines.mapM parse_line).map build_catalog

/-- The class-level mutable state of `Team`: `_hero_file_path`,
`_possible_heroes`, `_team_size`, `_allow_special_class`. -/
structure Config where
  hero_file_path : Option String
  possible_heroes : Option Catalog
  team_size : Int
  allow_special_class : Bool
deriving DecidableEq, Repr

/-- The initial class state of `Team` as declared in the source. -/
def Config.initial : Config :=
  { hero_file_path := none
    possible_heroes := none
    team_size := 3
    allow_special_class := true }

/-- `Team.set_hero_file`: raises `FileNotFoundError` when the path is not an
existing file (leaving `_hero_file_path` untouched), otherwise records it. -/
def set_hero_file (isFile : String → Bool) (cfg : Config) (path_to_file : String) :
    Option PyError × Config :=
  if !(isFile path_to_file) then (some .fileNotFound, cfg)
  else (none, { cfg with hero_file_path := some path_to_file })

/-- `Team.load_heroes`: `PathNotSetError` when `_hero_file_path` is falsy
(never set, or the empty string), `FileNotFoundError` when the recorded path no
longer exists, otherwise parse the file; every error path leaves
`_possible_heroes` unchanged (the loop builds a local dict that is assigned to
the class variable only after the loop completes). -/
def load_heroes (isFile : String → Bool) (readLines : String → List String)
    (cfg : Config) : Option PyError × Config :=
  match cfg.hero_file_path with
  | none => (some .pathNotSet, cfg)
  | some p =>
    if p.isEmpty then (some .pathNotSet, cfg)
    else if !(isFile p) then (some .fileNotFound, cfg)
    else
      match parse_hero_lines (readLines p) with
      | none => (some .indexError, cfg)
      | some d => (none, { cfg with possible_heroes := some d })

/-- `Team.disallow_special`: clear `_allow_special_class`, and when the catalog
is already loaded, truthy (non-empty), and holds a `"Special"` key, delete that
entry. -/
def disallow_special (cfg : Config) : Config :=
  let cfg1 :=
    if cfg.allow_special_class then { cfg with allow_special_class := false } else cfg
  match cfg1.possible_heroes with
  | none => cfg1
  | some d =>
    if !d.isEmpty && containsKey d "Special" then
      { cfg1 with possible_heroes := some (del_key d "Special") }
    else cfg1

/-- `Team.set_team_size`: the source checks `cls._team_size` — the currently
stored size — rather than the `team_size` argument, and stores the argument
unvalidated when the check passes. -/
def set_team_size (cfg : Config) (team_size : Int) : Option PyError × Config :=
  if cfg.team_size = 3 ∨ cfg.team_size = 4 then
    (none, { cfg with team_size := team_size })
  else
    (some .valueError, cfg)

/-- `random.randint(1, 20)` applied to an arbitrary draw `r`: every value in
`[1, 20]` and only those (uniformly, each residue of `r` mod 20 being equally
likely for a uniform `r`). -/
def randint_1_20 (r : Nat) : Nat :=
  1 + r % 20

/-- The per-instance state of a `Team`: `_name`, `_roll`, `_possible_classes`,
`_heroes`. -/
structure Team where
  name : String
  roll : Nat
  possible_classes : List String
  heroes : List String
deriving DecidableEq, Repr

/-- `Team.__init__`: lazily load the catalog when `_possible_heroes` is still
`None`; delete a lingering `"Special"` entry when the special class was
disallowed; then set `_name`, roll a d20 for `_roll`, snapshot the catalog's
current keys as `_possible_classes`, and start with no heroes. Returns the
raised error (if any), the class state after the call, and the constructed
team. -/
def team_init (isFile : String → Bool) (readLines : String → List String)
    (cfg : Config) (team_name : String) (r : Nat) :
    Option PyError × Config × Option Team :=
  match (match cfg.possible_heroes with
         | none => load_heroes isFile readLines cfg
         | some _ => (none, cfg)) with
  | (some e, cfg1) => (some e, cfg1, none)
  | (none, cfg1) =>
    match cfg1.possible_heroes with
    | none => (some .pathNotSet, cfg1, none)
    | some d =>
      let d1 := if !cfg1.allow_special_class && containsKey d "Special" then
                  del_key d "Special" else d
      (none, { cfg1 with possible_heroes := some d1 },
       some { name := team_name
              roll := randint_1_20 r
              possible_classes := d1.map Prod.fst
              heroes := [] })

/-- `Team.reroll`: reassign `_roll` from a fresh d20 draw; nothing else is
touched. -/
def Team.reroll (t : Team) (r : Nat) : Team :=
  { t with roll := randint_1_20 r }

/-- The weighted multiset built by `choose_hero`:
`[key for key in self._possible_classes for _ in self._possible_heroes[key]]`.
`none` models the `KeyError` raised when an eligible class is missing from the
catalog. -/
def keys_to_choose_from (possible_classes : List String) (possible_heroes : Catalog) :
    Option (List String) :=
  match possible_classes with
  | [] => some []
  | key :: rest => do
    let hs ← dictGet possible_heroes key
    let tl ← keys_to_choose_from rest possible_heroes
    pure (hs.map (fun _ => key) ++ tl)

/-- `Team.choose_hero`, with the two `random.choice` calls modelled by the
indices `i` (into the weighted key multiset) and `j` (into the chosen class's
hero list). On success: append the hero to `_heroes`, remove the class from
`_possible_classes` (`list.remove` drops the first occurrence), and remove the
hero from the shared catalog's list for that class. `none` models a raised
error; every raise point in the source precedes every mutation, so the caller's
state is then unchanged. -/
def choose_hero (t : Team) (cat : Catalog) (i j : Nat) : Option (Team × Catalog) := do
  let keys ← keys_to_choose_from t.possible_classes cat
  let key ← keys.get? i
  let heroList ← dictGet cat key
  let hero ← heroList.get? j
  pure ({ t with heroes := t.heroes ++ [hero]
                 possible_classes := t.possible_classes.erase key },
        dictSet cat key (heroList.erase hero))

/-- `choose_hero` as a total state transformer: a failed call leaves the
(team, catalog) state exactly as it was, since the source raises before any
mutation. -/
def choose_hero_run (t : Team) (cat : Catalog) (i j : Nat) : Team × Catalog :=
  (choose_hero t cat i j).getD (t, cat)

/-- First-occurrence order of a list of class names: the order in which Python
dict insertion first sees each key. Used to state the key-order property. -/
def first_occurrences_from (acc : List String) (cs : List String) : List String :=
  cs.foldl (fun acc c => if c ∈ acc then acc else acc ++ [c]) acc

/-- First-occurrence order starting from no keys. -/
def first_occurrences (cs : List String) : List String :=
  first_occurrences_from [] cs

/-- Join segments back with the `", "` delimiter (the full remainder of a line
after its first delimiter, as the spec reads it). -/
def joinCommaSpace : List (List Char) → List Char
  | [] => []
  | [s] => s
  | s :: ss => s ++ ',' :: ' ' :: joinCommaSpace ss

/-- Modelled from the spec (refinement comparison for C4): the claim reads the
hero field as the text before the first delimiter and the class field as the
*entire* remaining text with *whitespace* and the trailing newline stripped. -/
def spec_parse_line (line : String) : Option (String × String) :=
  match splitCommaSpace line.data with
  | [] => none
  | [_] => none
  | hero :: s :: ss =>
    some (⟨hero⟩, ⟨pyStrip (fun c => c.isWhitespace) (joinCommaSpace (s :: ss))⟩)

/-- One successful `choose_hero` call, decomposed exactly as the source's
selection: `ks` is the weighted multiset, `random.choice` picked index `i` of
it (the class `key`) and index `j` of that class's current hero list (the hero
`hero`); the resulting state is the one `choose_hero` returns. The labels
record which class and hero the call drafted
(see `choose_hero_some_iff_draftStep`). -/
inductive DraftStep : Team × Catalog → String × String → Team × Catalog → Prop
  | mk (t : Team) (cat : Catalog) (i j : Nat) (ks : List String)
      (key : String) (heroList : List String) (hero : String)
      (hks : keys_to_choose_from t.possible_classes cat = some ks)
      (hi : ks.get? i = some key)
      (hd : dictGet cat key = some heroList)
      (hj : heroList.get? j = some hero) :
      DraftStep (t, cat) (key, hero)
        ({ t with heroes := t.heroes ++ [hero]
                  possible_classes := t.possible_classes.erase key },
         dictSet cat key (heroList.erase hero))

/-- A sequence of successful `choose_hero` calls by one team against the shared
catalog, recording the `(class, hero)` drafted at each call. -/
inductive Drafts : Team × Catalog → List (String × String) → Team × Catalog → Prop
  | nil (s : Team × Catalog) : Drafts s [] s
  | cons {s s' s'' : Team × Catalog} {kh : String × String} {picks : List (String × String)}
      (hstep : DraftStep s kh s') (hrest : Drafts s' picks s'') :
      Drafts s (kh :: picks) s''

/-- A drafting session: the shared catalog (`cls._possible_heroes`) and the two
teams of the interactive flow. -/
structure Session where
  cat : Catalog
  team1 : Team
  team2 : Team
deriving DecidableEq, Repr

/-- One successful `choose_hero` call by either team of a session. -/
inductive SessionStep : Session → String × String → Session → Prop
  | left {s : Session} {kh : String × String} {t' : Team} {c' : Catalog}
      (h : DraftStep (s.team1, s.cat) kh (t', c')) :
      SessionStep s kh ⟨c', t', s.team2⟩
  | right {s : Session} {kh : String × String} {t' : Team} {c' : Catalog}
      (h : DraftStep (s.team2, s.cat) kh (t', c')) :
      SessionStep s kh ⟨c', s.team1, t'⟩

/-- Any interleaving of successful `choose_hero` calls by the two teams (in
particular the strictly alternating sequences of the interactive flow),
recording each drafted `(class, hero)`. -/
inductive SessionDraft : Session → List (String × String) → Session → Prop
  | nil (s : Session) : SessionDraft s [] s
  | cons {s s' s'' : Session} {kh : String × String} {picks : List (String × String)}
      (hstep : SessionStep s kh s') (hrest : SessionDraft s' picks s'') :
      SessionDraft s (kh :: picks) s''

/-- Everything drafting can still hand out, together with what it has already
handed out: the catalog's remaining heroes plus both teams' chosen heroes. -/
def combinedPool (s : Session) : List String :=
  allHeroes s.cat ++ s.team1.heroes ++ s.team2.heroes

example : parse_line "A, Mage\n" = some ("A", "Mage") := by decide
example : parse_line "A, Mage \n" = some ("A", "Mage ") := by decide
example : parse_line "A, Mage, Junk\n" = some ("A", "Mage") := by decide
example : parse_line "A-no-delim\n" = none := by decide
example : parse_hero_lines ["A, W\n", "B, W\n", "C, M\n"] =
    some [("W", ["A", "B"]), ("M", ["C"])] := by decide

example :
    choose_hero ⟨"t", 5, ["W", "M"], []⟩ [("W", ["A", "B"]), ("M", ["C"])] 2 0 =
      some (⟨"t", 5, ["W"], ["C"]⟩, [("W", ["A", "B"]), ("M", [])]) := by decide

example :
    choose_hero ⟨"t", 5, ["W", "M"], []⟩ [("W", []), ("M", [])] 0 0 = none := by decide

theorem randint_1_20_range (r : Nat) : 1 ≤ randint_1_20 r ∧ randint_1_20 r ≤ 20 := by
  have : r % 20 < 20 := Nat.mod_lt r (by norm_num)
  unfold randint_1_20
  omega

theorem keys_to_choose_from_all_empty {classes : List String} {cat : Catalog}
    (h : ∀ c ∈ classes, dictGet cat c = some []) :
    keys_to_choose_from classes cat = some [] := by
  induction classes with
  | nil => rfl
  | cons c rest ih =>
    have hc := h c (by simp)
    have hr : ∀ x ∈ rest, dictGet cat x = some [] := fun x hx => h x (by simp [hx])
    simp [keys_to_choose_from, hc, ih hr]

/-- C7: invoking `choose_hero` when every class still on the team's
eligible-class list has an empty hero list in the shared catalog raises (the
weighted multiset is empty, so `random.choice` raises from empty-list
selection) for every pair of random draws, and the team's chosen-hero list,
its eligible-class list and the shared catalog are left unchanged. -/
theorem C7_choose_hero_exhausted_raises (t : Team) (cat : Catalog)
    (h : ∀ c ∈ t.possible_classes, dictGet cat c = some []) (i j : Nat) :
    choose_hero t cat i j = none ∧ choose_hero_run t cat i j = (t, cat) := by
  have hk := keys_to_choose_from_all_empty h
  refine ⟨by simp [choose_hero, hk], by simp [choose_hero_run, choose_hero, hk]⟩

theorem C7_choose_hero_exhausted_raises_witness :
    choose_hero ⟨"t", 5, ["W"], []⟩ [("W", [])] 0 0 = none ∧
    choose_hero_run ⟨"t", 5, ["W"], []⟩ [("W", [])] 0 0 = (⟨"t", 5, ["W"], []⟩, [("W", [])]) :=
  C7_choose_hero_exhausted_raises ⟨"t", 5, ["W"], []⟩ [("W", [])] (by decide) 0 0

/-- C3 (code bug): the source's `set_team_size` validates the *currently
stored* `cls._team_size` instead of its argument, contradicting its own
docstring ("Must be 3 or 4 ... raises ValueError if team_size is not 3 or 4").
From the initial state (stored size 3) a call with 5 raises nothing and stores
5 — and a subsequent call with the valid value 3 then raises `ValueError`. -/
theorem C3_set_team_size_validates_wrong_variable :
    set_team_size Config.initial 5 = (none, { Config.initial with team_size := 5 }) ∧
    (set_team_size { Config.initial with team_size := 5 } 3).1 = some PyError.valueError := by
  constructor <;> decide

/-- C8: `set_hero_file` raises `FileNotFoundError` exactly when the path is
not an existing file and then leaves the configuration (in particular the
previously recorded path) unchanged; `load_heroes` raises `PathNotSetError`
when no source path was set, raises `FileNotFoundError` when the recorded path
no longer exists, and every error path returns the class state unchanged. -/
theorem C8_loader_error_contract :
    (∀ (isFile : String → Bool) (cfg : Config) (p : String),
      ((set_hero_file isFile cfg p).1 = some PyError.fileNotFound ↔ isFile p = false) ∧
      (∀ e, (set_hero_file isFile cfg p).1 = some e → e = PyError.fileNotFound) ∧
      (isFile p = false → (set_hero_file isFile cfg p).2 = cfg)) ∧
    (∀ (isFile : String → Bool) (readLines : String → List String) (cfg : Config),
      (cfg.hero_file_path = none →
        load_heroes isFile readLines cfg = (some PyError.pathNotSet, cfg)) ∧
      (∀ p, cfg.hero_file_path = some p → p.isEmpty = false → isFile p = false →
        load_heroes isFile readLines cfg = (some PyError.fileNotFound, cfg)) ∧
      (∀ e cfg', load_heroes isFile readLines cfg = (some e, cfg') → cfg' = cfg)) := by
  constructor
  · intro isFile cfg p
    by_cases hf : isFile p
    · refine ⟨by simp [set_hero_file, hf], ?_, ?_⟩
      · intro e he
        simp [set_hero_file, hf] at he
      · intro hc
        rw [hf] at hc
        simp at hc
    · simp only [Bool.not_eq_true] at hf
      exact ⟨by simp [set_hero_file, hf], fun e he => by
        simp [set_hero_file, hf] at he
        exact he.symm, fun _ => by simp [set_hero_file, hf]⟩
  · intro isFile readLines cfg
    refine ⟨fun hn => by simp [load_heroes, hn], ?_, ?_⟩
    · intro p hp hemp hf
      simp [load_heroes, hp, hemp, hf]
    · intro e cfg' h
      unfold load_heroes at h
      rcases hpath : cfg.hero_file_path with _ | p <;> rw [hpath] at h
      · simp at h
        exact h.2.symm
      · by_cases hemp : p.isEmpty
        · simp [hemp] at h
          exact h.2.symm
        · by_cases hf : isFile p
          · rcases hparse : parse_hero_lines (readLines p) with _ | d <;>
              simp [hemp, hf, hparse] at h
            exact h.2.symm
          · simp only [Bool.not_eq_true] at hf
            simp [hemp, hf] at h
            exact h.2.symm

theorem C8_loader_error_contract_witness :
    (set_hero_file (fun _ => false) Config.initial "heroes.txt").1 = some PyError.fileNotFound ∧
    load_heroes (fun _ => false) (fun _ => []) Config.initial = (some PyError.pathNotSet, Config.initial) :=
  ⟨((C8_loader_error_contract.1 (fun _ => false) Config.initial "heroes.txt").1).mpr rfl,
   ((C8_loader_error_contract.2 (fun _ => false) (fun _ => []) Config.initial).1) rfl⟩

/-- C9: a team's roll lies in `[1, 20]` both at construction and after any
reroll, and `reroll` changes only the roll field — the team's name,
chosen-hero list and eligible-class list are untouched (its embedding
`Team.reroll` neither reads nor writes the shared catalog). -/
theorem C9_roll_range_and_reroll_frame :
    (∀ (t : Team) (r : Nat),
      1 ≤ (t.reroll r).roll ∧ (t.reroll r).roll ≤ 20 ∧
      (t.reroll r).name = t.name ∧
      (t.reroll r).possible_classes = t.possible_classes ∧
      (t.reroll r).heroes = t.heroes) ∧
    (∀ (isFile : String → Bool) (readLines : String → List String)
       (cfg : Config) (nm : String) (r : Nat) (e : Option PyError)
       (cfg' : Config) (t : Team),
      team_init isFile readLines cfg nm r = (e, cfg', some t) →
      1 ≤ t.roll ∧ t.roll ≤ 20) := by
  constructor
  · intro t r
    have := randint_1_20_range r
    exact ⟨this.1, this.2, rfl, rfl, rfl⟩
  · intro isFile readLines cfg nm r e cfg' t h
    unfold team_init at h
    split at h
    · simp at h
    · split at h
      · simp at h
      · simp only [Prod.mk.injEq, Option.some.injEq] at h
        rcases h with ⟨_, _, ht⟩
        rw [← ht]
        exact randint_1_20_range r

theorem C9_roll_range_and_reroll_frame_witness :
    1 ≤ (Team.mk "t" 6 ["W"] []).roll ∧ (Team.mk "t" 6 ["W"] []).roll ≤ 20 :=
  C9_roll_range_and_reroll_frame.2 (fun _ => true) (fun _ => ["A, W\n"])
    { Config.initial with hero_file_path := some "p" } "t" 5 none
    { Config.initial with hero_file_path := some "p"
                          possible_heroes := some [("W", ["A"])] }
    (Team.mk "t" 6 ["W"] []) (by decide)

theorem map_const_replicate (hs : List String) (c : String) :
    hs.map (fun _ => c) = List.replicate hs.length c := by
  induction hs with
  | nil => rfl
  | cons h t ih => simp [List.replicate, ih]

theorem keys_to_choose_from_isSome {classes : List String} {cat : Catalog}
    (h : ∀ c ∈ classes, (dictGet cat c).isSome) :
    ∃ ks, keys_to_choose_from classes cat = some ks := by
  induction classes with
  | nil => exact ⟨[], rfl⟩
  | cons c rest ih =>
    rcases Option.isSome_iff_exists.mp (h c (by simp)) with ⟨hs, hc⟩
    rcases ih (fun x hx => h x (by simp [hx])) with ⟨tl, ht⟩
    exact ⟨hs.map (fun _ => c) ++ tl, by simp [keys_to_choose_from, hc, ht]⟩

theorem keys_to_choose_from_count {classes : List String} {cat : Catalog}
    {ks : List String} (hnd : classes.Nodup)
    (h : keys_to_choose_from classes cat = some ks) (c : String) :
    ks.count c = if c ∈ classes then ((dictGet cat c).getD []).length else 0 := by
  induction classes generalizing ks with
  | nil =>
    have h' : ([] : List String) = ks := Option.some.inj h
    subst h'
    simp
  | cons k rest ih =>
    rcases hk : dictGet cat k with _ | hs <;> rw [keys_to_choose_from, hk] at h
    · simp at h
    · rcases ht : keys_to_choose_from rest cat with _ | tl <;> rw [ht] at h
      · simp at h
      · simp only [Option.bind_eq_bind, Option.some_bind, Option.pure_def, Option.some.injEq] at h
        subst h
        rw [List.count_append, map_const_replicate, List.count_replicate,
          ih hnd.of_cons ht]
        by_cases hck : c = k
        · subst hck
          have hcr : c ∉ rest := (List.nodup_cons.mp hnd).1
          simp [hcr, hk]
        · simp [hck, Ne.symm hck]

theorem keys_to_choose_from_mem {classes : List String} {cat : Catalog}
    {ks : List String} (h : keys_to_choose_from classes cat = some ks) :
    ∀ k ∈ ks, k ∈ classes ∧ ∃ hs, dictGet cat k = some hs ∧ hs ≠ [] := by
  induction classes generalizing ks with
  | nil =>
    have h' : ([] : List String) = ks := Option.some.inj h
    subst h'
    simp
  | cons c rest ih =>
    rcases hc : dictGet cat c with _ | hs <;> rw [keys_to_choose_from, hc] at h
    · simp at h
    · rcases ht : keys_to_choose_from rest cat with _ | tl <;> rw [ht] at h
      · simp at h
      · simp only [Option.bind_eq_bind, Option.some_bind, Option.pure_def, Option.some.injEq] at h
        subst h
        intro k hk
        rcases List.mem_append.mp hk with hm | hm
        · rcases List.mem_map.mp hm with ⟨x, hx, hxk⟩
          subst hxk
          exact ⟨by simp, hs, hc, by rintro rfl; simp at hx⟩
        · rcases ih ht k hm with ⟨h1, h2⟩
          exact ⟨by simp [h1], h2⟩

/-- C1: when the team still has eligible classes (all of them keys of the
shared catalog, as at construction), `choose_hero` draws the class from the
multiset `keys_to_choose_from`, which contains each eligible class exactly
once per hero currently remaining in the catalog's list for that class (so a
class is picked with probability proportional to its remaining hero count and
a class with an empty list is never picked), and then draws the hero uniformly
from that class's remaining list: every index into that list is realized and
yields exactly that hero. -/
theorem C1_weighted_class_then_uniform_hero (t : Team) (cat : Catalog)
    (_hne : t.possible_classes ≠ [])
    (hnd : t.possible_classes.Nodup)
    (hpresent : ∀ c ∈ t.possible_classes, (dictGet cat c).isSome) :
    ∃ ks, keys_to_choose_from t.possible_classes cat = some ks ∧
      (∀ c, ks.count c =
        if c ∈ t.possible_classes then ((dictGet cat c).getD []).length else 0) ∧
      (∀ c ∈ ks, (dictGet cat c).getD [] ≠ []) ∧
      (∀ (i : Nat) (key : String), ks.get? i = some key →
        ∀ (j : Nat) (hero : String), ((dictGet cat key).getD []).get? j = some hero →
          choose_hero t cat i j =
            some ({ t with heroes := t.heroes ++ [hero]
                           possible_classes := t.possible_classes.erase key },
                  dictSet cat key (((dictGet cat key).getD []).erase hero))) := by
  rcases keys_to_choose_from_isSome hpresent with ⟨ks, hks⟩
  refine ⟨ks, hks, fun c => keys_to_choose_from_count hnd hks c, ?_, ?_⟩
  · intro c hc
    rcases (keys_to_choose_from_mem hks c hc).2 with ⟨hs, h1, h2⟩
    simp [h1, h2]
  · intro i key hi j hero hj
    have hkey := List.get?_mem hi
    rcases (keys_to_choose_from_mem hks key hkey).2 with ⟨hs, hd, _⟩
    rw [hd] at hj ⊢
    simp only [Option.getD_some] at hj ⊢
    rw [List.get?_eq_getElem?] at hi hj
    simp [choose_hero, hks, hi, hd, hj]

theorem C1_weighted_class_then_uniform_hero_witness :
    ∃ ks, keys_to_choose_from (Team.mk "t" 5 ["W", "M"] []).possible_classes
        [("W", ["A", "B"]), ("M", ["C"])] = some ks ∧
      (∀ c, ks.count c =
        if c ∈ (Team.mk "t" 5 ["W", "M"] []).possible_classes then
          ((dictGet [("W", ["A", "B"]), ("M", ["C"])] c).getD []).length
        else 0) ∧
      (∀ c ∈ ks, (dictGet [("W", ["A", "B"]), ("M", ["C"])] c).getD [] ≠ []) ∧
      (∀ (i : Nat) (key : String), ks.get? i = some key →
        ∀ (j : Nat) (hero : String),
          ((dictGet [("W", ["A", "B"]), ("M", ["C"])] key).getD []).get? j = some hero →
          choose_hero (Team.mk "t" 5 ["W", "M"] []) [("W", ["A", "B"]), ("M", ["C"])] i j =
            some ({ Team.mk "t" 5 ["W", "M"] [] with
                      heroes := (Team.mk "t" 5 ["W", "M"] []).heroes ++ [hero]
                      possible_classes :=
                        (Team.mk "t" 5 ["W", "M"] []).possible_classes.erase key },
                  dictSet [("W", ["A", "B"]), ("M", ["C"])] key
                    (((dictGet [("W", ["A", "B"]), ("M", ["C"])] key).getD []).erase hero))) :=
  C1_weighted_class_then_uniform_hero (Team.mk "t" 5 ["W", "M"] [])
    [("W", ["A", "B"]), ("M", ["C"])] (by decide) (by decide) (by decide)

theorem dictSet_keys (d : Catalog) (k : String) (v : List String) :
    (dictSet d k v).map Prod.fst = d.map Prod.fst := by
  unfold dictSet
  rw [List.map_map]
  apply List.map_congr_left
  intro p _
  by_cases h : p.1 = k <;> simp [h]

theorem dictSet_of_not_mem {d : Catalog} {k : String} (h : k ∉ d.map Prod.fst)
    (v : List String) : dictSet d k v = d := by
  induction d with
  | nil => rfl
  | cons p rest ih =>
    simp only [List.map_cons, List.mem_cons, not_or] at h
    have hp : (p.1 == k) = false := by
      rw [beq_eq_false_iff_ne]
      exact Ne.symm h.1
    show (if (p.1 == k) = true then (p.1, v) else p) :: dictSet rest k v = p :: rest
    rw [hp, ih h.2]
    simp

theorem allHeroes_cons (p : String × List String) (rest : Catalog) :
    allHeroes (p :: rest) = p.2 ++ allHeroes rest := by
  simp [allHeroes]

theorem dictGet_mem_allHeroes {d : Catalog} {k : String} {l : List String}
    (h : dictGet d k = some l) {x : String} (hx : x ∈ l) : x ∈ allHeroes d := by
  rcases Option.map_eq_some'.mp h with ⟨p, hp, hpl⟩
  have hpd : p ∈ d := List.mem_of_find?_eq_some hp
  exact List.mem_flatMap.mpr ⟨p, hpd, hpl ▸ hx⟩

theorem allHeroes_dictSet {d : Catalog} {k : String} {l : List String}
    (hnd : (d.map Prod.fst).Nodup) (h : dictGet d k = some l) (v : List String) :
    ∃ A B, allHeroes d = A ++ l ++ B ∧ allHeroes (dictSet d k v) = A ++ v ++ B := by
  induction d with
  | nil => simp [dictGet] at h
  | cons p rest ih =>
    by_cases hk : p.1 = k
    · have hbeq : (p.1 == k) = true := by simp [hk]
      have hl : p.2 = l := by
        have hfind : dictGet (p :: rest) k = some p.2 := by
          simp [dictGet, List.find?_cons, hbeq]
        exact Option.some.inj (hfind.symm.trans h)
      have hknot : k ∉ rest.map Prod.fst := by
        rw [← hk]
        exact (List.nodup_cons.mp (by simpa using hnd)).1
      refine ⟨[], allHeroes rest, by simp [allHeroes_cons, hl], ?_⟩
      show allHeroes ((if (p.1 == k) = true then (p.1, v) else p) :: dictSet rest k v) =
        [] ++ v ++ allHeroes rest
      rw [hbeq, dictSet_of_not_mem hknot v]
      simp [allHeroes_cons]
    · have hbeq : (p.1 == k) = false := by
        rw [beq_eq_false_iff_ne]
        exact hk
      have h' : dictGet rest k = some l := by
        unfold dictGet at h ⊢
        simp only [List.find?_cons, hbeq] at h
        exact h
      have hnd' : (rest.map Prod.fst).Nodup :=
        (List.nodup_cons.mp (by simpa using hnd)).2
      rcases ih hnd' h' with ⟨A, B, hA, hB⟩
      refine ⟨p.2 ++ A, B, ?_, ?_⟩
      · rw [allHeroes_cons, hA]
        simp [List.append_assoc]
      · show allHeroes ((if (p.1 == k) = true then (p.1, v) else p) :: dictSet rest k v) =
          (p.2 ++ A) ++ v ++ B
        rw [hbeq]
        simp only [Bool.false_eq_true, if_false]
        rw [allHeroes_cons, hB]
        simp [List.append_assoc]

theorem draftStep_fields {s s' : Team × Catalog} {key hero : String}
    (h : DraftStep s (key, hero) s') :
    key ∈ s.1.possible_classes ∧
    s'.1.possible_classes = s.1.possible_classes.erase key ∧
    s'.1.heroes = s.1.heroes ++ [hero] ∧
    s'.1.name = s.1.name ∧ s'.1.roll = s.1.roll ∧
    s'.2.map Prod.fst = s.2.map Prod.fst ∧
    hero ∈ allHeroes s.2 := by
  cases h with
  | mk t cat i j ks key heroList hero hks hi hd hj =>
    have hkey : key ∈ ks := List.get?_mem hi
    have hmem := (keys_to_choose_from_mem hks key hkey).1
    have hhero : hero ∈ heroList := List.get?_mem hj
    exact ⟨hmem, rfl, rfl, rfl, rfl, dictSet_keys cat key (heroList.erase hero),
      dictGet_mem_allHeroes hd hhero⟩

theorem draftStep_pool {s s' : Team × Catalog} {key hero : String}
    (hnd : (s.2.map Prod.fst).Nodup) (h : DraftStep s (key, hero) s') :
    ∀ a : String, (allHeroes s'.2).count a + [hero].count a = (allHeroes s.2).count a := by
  cases h with
  | mk t cat i j ks key heroList hero hks hi hd hj =>
    have hhero : hero ∈ heroList := List.get?_mem hj
    rcases allHeroes_dictSet hnd hd (heroList.erase hero) with ⟨A, B, hA, hB⟩
    intro a
    have hperm : heroList.Perm (hero :: heroList.erase hero) :=
      List.perm_cons_erase hhero
    have hc := hperm.count_eq a
    simp only [hA, hB, List.count_append, List.count_cons, List.count_nil] at *
    omega

theorem sessionStep_pool {s s' : Session} {kh : String × String}
    (hnd : (s.cat.map Prod.fst).Nodup) (h : SessionStep s kh s') :
    (combinedPool s').Perm (combinedPool s) ∧
    s'.cat.map Prod.fst = s.cat.map Prod.fst := by
  rcases kh with ⟨key, hero⟩
  cases h with
  | left hstep =>
    have hf := draftStep_fields hstep
    dsimp only at hf
    have hp := draftStep_pool hnd hstep
    dsimp only at hp
    refine ⟨List.perm_iff_count.mpr fun a => ?_, hf.2.2.2.2.2.1⟩
    have hpa := hp a
    simp only [combinedPool, List.count_append, hf.2.2.1, List.count_cons,
      List.count_nil] at *
    omega
  | right hstep =>
    have hf := draftStep_fields hstep
    dsimp only at hf
    have hp := draftStep_pool hnd hstep
    dsimp only at hp
    refine ⟨List.perm_iff_count.mpr fun a => ?_, hf.2.2.2.2.2.1⟩
    have hpa := hp a
    simp only [combinedPool, List.count_append, hf.2.2.1, List.count_cons,
      List.count_nil] at *
    omega

theorem sessionDraft_pool {s s' : Session} {picks : List (String × String)}
    (h : SessionDraft s picks s') (hnd : (s.cat.map Prod.fst).Nodup) :
    (combinedPool s').Perm (combinedPool s) ∧
    s'.cat.map Prod.fst = s.cat.map Prod.fst := by
  induction h with
  | nil => exact ⟨List.Perm.refl _, rfl⟩
  | cons hstep hrest ih =>
    have h1 := sessionStep_pool hnd hstep
    have h2 := ih (h1.2 ▸ hnd)
    exact ⟨h2.1.trans h1.1, h1.2 ▸ h2.2⟩

/-- C2: for every interleaving (in particular every alternation) of successful
`choose_hero` calls by two teams sharing the catalog, starting from a catalog
whose hero names are globally distinct and two teams with no heroes yet, the
combined chosen-hero lists never contain a name twice, and every chosen hero
is gone from the shared catalog (so it can never be selected again). -/
theorem C2_no_hero_drafted_twice (s0 s : Session) (picks : List (String × String))
    (hkeys : (s0.cat.map Prod.fst).Nodup)
    (hpool : (allHeroes s0.cat).Nodup)
    (h1 : s0.team1.heroes = []) (h2 : s0.team2.heroes = [])
    (hD : SessionDraft s0 picks s) :
    (s.team1.heroes ++ s.team2.heroes).Nodup ∧
    ∀ h ∈ s.team1.heroes ++ s.team2.heroes, h ∉ allHeroes s.cat := by
  have hperm := (sessionDraft_pool hD hkeys).1
  have hnd0 : (combinedPool s0).Nodup := by
    simp [combinedPool, h1, h2, hpool]
  have hnds : (combinedPool s).Nodup := hperm.nodup_iff.mpr hnd0
  unfold combinedPool at hnds
  rw [List.append_assoc] at hnds
  rcases List.nodup_append.mp hnds with ⟨_, hBC, hdisj⟩
  exact ⟨hBC, fun h hh hcat => hdisj hcat hh⟩

theorem C2_no_hero_drafted_twice_witness :
    ((Session.mk [("W", ["A", "B"]), ("M", ["C"])]
        (Team.mk "t1" 5 ["W", "M"] []) (Team.mk "t2" 7 ["W", "M"] [])).team1.heroes ++
      (Session.mk [("W", ["A", "B"]), ("M", ["C"])]
        (Team.mk "t1" 5 ["W", "M"] []) (Team.mk "t2" 7 ["W", "M"] [])).team2.heroes).Nodup ∧
    ∀ h ∈ (Session.mk [("W", ["A", "B"]), ("M", ["C"])]
        (Team.mk "t1" 5 ["W", "M"] []) (Team.mk "t2" 7 ["W", "M"] [])).team1.heroes ++
      (Session.mk [("W", ["A", "B"]), ("M", ["C"])]
        (Team.mk "t1" 5 ["W", "M"] []) (Team.mk "t2" 7 ["W", "M"] [])).team2.heroes,
      h ∉ allHeroes (Session.mk [("W", ["A", "B"]), ("M", ["C"])]
        (Team.mk "t1" 5 ["W", "M"] []) (Team.mk "t2" 7 ["W", "M"] [])).cat :=
  C2_no_hero_drafted_twice _ _ [] (by decide) (by decide) rfl rfl (SessionDraft.nil _)

theorem choose_hero_some_draftStep {t : Team} {cat : Catalog} {i j : Nat}
    {s' : Team × Catalog} (h : choose_hero t cat i j = some s') :
    ∃ key hero, DraftStep (t, cat) (key, hero) s' := by
  unfold choose_hero at h
  rcases hks : keys_to_choose_from t.possible_classes cat with _ | ks <;>
    rw [hks] at h
  · simp at h
  · simp only [Option.bind_eq_bind, Option.some_bind] at h
    rcases hi : ks.get? i with _ | key <;> rw [hi] at h
    · simp at h
    · simp only [Option.some_bind] at h
      rcases hd : dictGet cat key with _ | heroList <;> rw [hd] at h
      · simp at h
      · simp only [Option.some_bind] at h
        rcases hj : heroList.get? j with _ | hero <;> rw [hj] at h
        · simp at h
        · simp only [Option.some_bind, Option.pure_def, Option.some.injEq] at h
          subst h
          exact ⟨key, hero, DraftStep.mk t cat i j ks key heroList hero hks hi hd hj⟩

theorem draftStep_choose_hero {s s' : Team × Catalog} {key hero : String}
    (h : DraftStep s (key, hero) s') :
    ∃ i j, choose_hero s.1 s.2 i j = some s' := by
  cases h with
  | mk t cat i j ks key heroList hero hks hi hd hj =>
    refine ⟨i, j, ?_⟩
    rw [List.get?_eq_getElem?] at hi hj
    simp [choose_hero, hks, hi, hd, hj]

theorem allHeroes_dictSet_subset {d : Catalog} {k : String} {v : List String}
    (hv : ∀ x ∈ v, x ∈ allHeroes d) :
    ∀ x ∈ allHeroes (dictSet d k v), x ∈ allHeroes d := by
  intro x hx
  rcases List.mem_flatMap.mp hx with ⟨q, hq, hxq⟩
  rcases List.mem_map.mp hq with ⟨p, hp, hpq⟩
  by_cases hk : p.1 == k
  · rw [← hpq] at hxq
    simp only [hk, if_true] at hxq
    exact hv x hxq
  · rw [← hpq] at hxq
    simp only [hk] at hxq
    simp only [Bool.false_eq_true, if_false] at hxq
    exact List.mem_flatMap.mpr ⟨p, hp, hxq⟩

theorem draftStep_allHeroes_subset {s s' : Team × Catalog} {key hero : String}
    (h : DraftStep s (key, hero) s') :
    ∀ x ∈ allHeroes s'.2, x ∈ allHeroes s.2 := by
  cases h with
  | mk t cat i j ks key heroList hero hks hi hd hj =>
    exact allHeroes_dictSet_subset fun x hx =>
      dictGet_mem_allHeroes hd (List.erase_subset _ _ hx)

theorem drafts_spec {s s' : Team × Catalog} {picks : List (String × String)}
    (h : Drafts s picks s') :
    s'.1.heroes = s.1.heroes ++ picks.map Prod.snd ∧
    (∀ q ∈ picks, q.1 ∈ s.1.possible_classes ∧ q.2 ∈ allHeroes s.2) ∧
    s'.1.possible_classes.length + picks.length = s.1.possible_classes.length ∧
    (s.1.possible_classes.Nodup →
      s'.1.possible_classes.Nodup ∧ (picks.map Prod.fst).Nodup) ∧
    (∀ c ∈ s'.1.possible_classes, c ∈ s.1.possible_classes) := by
  induction h with
  | nil => simp
  | @cons s s1 s2 kh picks hstep hrest ih =>
    rcases kh with ⟨key, hero⟩
    obtain ⟨hkey, hclasses, hheroes, -, -, -, hhero⟩ := draftStep_fields hstep
    obtain ⟨ih1, ih2, ih3, ih4, ih5⟩ := ih
    have hsub : ∀ c ∈ s1.1.possible_classes, c ∈ s.1.possible_classes := by
      intro c hc
      rw [hclasses] at hc
      exact List.erase_subset _ _ hc
    refine ⟨?_, ?_, ?_, ?_, ?_⟩
    · rw [ih1, hheroes]
      simp
    · rintro ⟨k1, h1⟩ hq
      rcases List.mem_cons.mp hq with hq | hq
      · cases hq
        exact ⟨hkey, hhero⟩
      · rcases ih2 _ hq with ⟨hq1, hq2⟩
        exact ⟨hsub _ hq1, draftStep_allHeroes_subset hstep _ hq2⟩
    · have herase : s1.1.possible_classes.length + 1 = s.1.possible_classes.length := by
        rw [hclasses]
        exact List.length_erase_add_one hkey
      simp only [List.length_cons]
      omega
    · intro hnd
      have hnd1 : s1.1.possible_classes.Nodup := by
        rw [hclasses]
        exact hnd.erase key
      rcases ih4 hnd1 with ⟨hnd2, hndp⟩
      refine ⟨hnd2, ?_⟩
      simp only [List.map_cons, List.nodup_cons]
      refine ⟨?_, hndp⟩
      intro hmem
      rcases List.mem_map.mp hmem with ⟨q, hq, hq1⟩
      have := ih2 q hq
      rw [hclasses] at this
      have hne := ((List.Nodup.mem_erase_iff hnd).mp this.1).1
      exact hne (hq1 ▸ rfl)
    · intro c hc
      exact hsub c (ih5 c hc)

/-- C5: for every sequence of N successful `choose_hero` calls by one team
(each call made in a state where the weighted selection finds a hero), the
team's chosen-hero list has length exactly N and lists the drafted heroes in
pick order, its eligible-class list has shrunk by exactly N entries, and no
class is drafted twice by that team (each pick's class is removed from the
eligible-class list, so the classes of the N picks are pairwise distinct). -/
theorem C5_team_draft_counts (t t' : Team) (cat cat' : Catalog)
    (picks : List (String × String)) (N : Nat)
    (hlen : picks.length = N)
    (hnd : t.possible_classes.Nodup)
    (h0 : t.heroes = [])
    (hD : Drafts (t, cat) picks (t', cat')) :
    t'.heroes.length = N ∧
    t'.possible_classes.length + N = t.possible_classes.length ∧
    (picks.map Prod.fst).Nodup ∧
    t'.heroes = picks.map Prod.snd := by
  obtain ⟨h1, _, h3, h4, _⟩ := drafts_spec hD
  dsimp only at h1 h3 h4
  rw [h0] at h1
  simp only [List.nil_append] at h1
  exact ⟨by rw [h1, List.length_map, hlen], by rw [← hlen]; exact h3,
    (h4 hnd).2, h1⟩

theorem C5_team_draft_counts_witness :
    (Team.mk "t" 5 ["M"] ["A"]).heroes.length = 1 ∧
    (Team.mk "t" 5 ["M"] ["A"]).possible_classes.length + 1 =
      (Team.mk "t" 5 ["W", "M"] []).possible_classes.length ∧
    (([("W", "A")] : List (String × String)).map Prod.fst).Nodup ∧
    (Team.mk "t" 5 ["M"] ["A"]).heroes =
      ([("W", "A")] : List (String × String)).map Prod.snd := by
  refine C5_team_draft_counts (Team.mk "t" 5 ["W", "M"] []) (Team.mk "t" 5 ["M"] ["A"])
    [("W", ["A"]), ("M", ["C"])] [("W", []), ("M", ["C"])]
    [("W", "A")] 1 rfl (by decide) rfl ?_
  exact Drafts.cons
    (DraftStep.mk (Team.mk "t" 5 ["W", "M"] []) [("W", ["A"]), ("M", ["C"])]
      0 0 ["W", "M"] "W" ["A"] "A" (by decide) (by decide) (by decide) (by decide))
    (Drafts.nil _)

theorem splitCommaSpace_append {a : List Char} (h : ',' ∉ a) (rest : List Char) :
    splitCommaSpace (a ++ ',' :: ' ' :: rest) = a :: splitCommaSpace rest := by
  induction a with
  | nil => simp [splitCommaSpace]
  | cons c a' ih =>
    have hc : c ≠ ',' := fun hcc => h (hcc ▸ List.mem_cons_self c a')
    have h' : ',' ∉ a' := fun hm => h (List.mem_cons_of_mem _ hm)
    cases a' with
    | nil => simp [splitCommaSpace, hc]
    | cons c2 a'' =>
      have hrec := ih h'
      simp only [List.cons_append] at hrec ⊢
      rw [splitCommaSpace, if_neg (by simp [hc]), hrec]

theorem parse_line_concat (hero cls rest : String)
    (h1 : ',' ∉ hero.data) (h2 : ',' ∉ cls.data) :
    parse_line (hero ++ ", " ++ cls ++ ", " ++ rest) = some (hero, strip_nl cls) := by
  have hdata : (hero ++ ", " ++ cls ++ ", " ++ rest).data =
      hero.data ++ ',' :: ' ' :: (cls.data ++ ',' :: ' ' :: rest.data) := by
    simp [String.data_append]
  unfold parse_line splitLine
  rw [hdata, splitCommaSpace_append h1, splitCommaSpace_append h2]
  rfl

/-- C10: for a line whose `", "`-split has more than two segments (more than
one delimiter), `load_heroes`'s per-line parse takes the hero to be the first
segment and the class to be only the *second* segment (the text between the
first and second delimiters) with newlines stripped; every later segment is
discarded — the parse depends only on the first two segments, and on a line
built as `hero ++ ", " ++ cls ++ ", " ++ rest` (with comma-free hero and
class) the class is `cls`, not the full remainder `cls ++ ", " ++ rest`. -/
theorem C10_class_is_second_segment :
    (∀ (line : String) (s0 s1 : String) (stail : List String),
      splitLine line = s0 :: s1 :: stail →
      parse_line line = some (s0, strip_nl s1)) ∧
    (∀ l1 l2 : String, (splitLine l1).take 2 = (splitLine l2).take 2 →
      2 ≤ (splitLine l1).length → parse_line l1 = parse_line l2) ∧
    (∀ hero cls rest : String, ',' ∉ hero.data → ',' ∉ cls.data →
      parse_line (hero ++ ", " ++ cls ++ ", " ++ rest) = some (hero, strip_nl cls)) := by
  refine ⟨?_, ?_, parse_line_concat⟩
  · intro line s0 s1 stail hsplit
    unfold parse_line
    rw [hsplit]
  · intro l1 l2 htake hlen
    rcases hs1 : splitLine l1 with _ | ⟨a, _ | ⟨b, t1⟩⟩ <;> rw [hs1] at htake hlen <;>
      simp at hlen
    rcases hs2 : splitLine l2 with _ | ⟨a2, _ | ⟨b2, t2⟩⟩ <;> rw [hs2] at htake <;>
      simp at htake
    obtain ⟨rfl, rfl⟩ := htake
    unfold parse_line
    rw [hs1, hs2]

theorem C10_class_is_second_segment_witness :
    parse_line ("A" ++ ", " ++ "Mage" ++ ", " ++ "Junk\n") =
      some ("A", strip_nl "Mage") :=
  C10_class_is_second_segment.2.2 "A" "Mage" "Junk\n" (by decide) (by decide)

theorem containsKey_isSome (d : Catalog) (c : String) :
    containsKey d c = (dictGet d c).isSome := by
  induction d with
  | nil => rfl
  | cons p rest ih =>
    by_cases hp : p.1 = c
    · have hb : (p.1 == c) = true := by simp [hp]
      simp [containsKey, dictGet, List.find?_cons, List.any_cons, hb]
    · have hb : (p.1 == c) = false := by
        rw [beq_eq_false_iff_ne]
        exact hp
      simp only [containsKey, dictGet, List.any_cons, List.find?_cons, hb,
        Bool.false_or]
      exact ih

theorem dictGet_map_add_ne (d : Catalog) (cls hero c : String) (hne : c ≠ cls) :
    dictGet (d.map (fun p => if p.1 == cls then (p.1, p.2 ++ [hero]) else p)) c =
      dictGet d c := by
  induction d with
  | nil => rfl
  | cons p rest ih =>
    by_cases hp : p.1 = c
    · have hb : (p.1 == c) = true := by simp [hp]
      have hcls : (p.1 == cls) = false := by
        rw [beq_eq_false_iff_ne, hp]
        exact hne
      simp only [dictGet, List.map_cons, List.find?_cons, hcls,
        Bool.false_eq_true, if_false, hb, Option.map_some']
    · have hb : (p.1 == c) = false := by
        rw [beq_eq_false_iff_ne]
        exact hp
      by_cases hcl : p.1 = cls
      · have hcb : (p.1 == cls) = true := by simp [hcl]
        simp only [dictGet, List.map_cons, List.find?_cons, hcb, if_true, hb]
        exact ih
      · have hcb : (p.1 == cls) = false := by
          rw [beq_eq_false_iff_ne]
          exact hcl
        simp only [dictGet, List.map_cons, List.find?_cons, hcb,
          Bool.false_eq_true, if_false, hb]
        exact ih

theorem dictGet_map_add_eq (d : Catalog) (cls hero : String) {l : List String}
    (h : dictGet d cls = some l) :
    dictGet (d.map (fun p => if p.1 == cls then (p.1, p.2 ++ [hero]) else p)) cls =
      some (l ++ [hero]) := by
  induction d with
  | nil => simp [dictGet] at h
  | cons p rest ih =>
    by_cases hpc : p.1 = cls
    · have h2 : (p.1 == cls) = true := by simp [hpc]
      have hl : p.2 = l := by
        unfold dictGet at h
        simp only [List.find?_cons, h2, Option.map_some'] at h
        exact Option.some.inj h
      subst hl
      simp only [dictGet, List.map_cons, List.find?_cons, h2, if_true,
        Option.map_some']
    · have h2 : (p.1 == cls) = false := by
        rw [beq_eq_false_iff_ne]
        exact hpc
      have h' : dictGet rest cls = some l := by
        unfold dictGet at h ⊢
        simp only [List.find?_cons, h2] at h
        exact h
      simp only [dictGet, List.map_cons, List.find?_cons, h2,
        Bool.false_eq_true, if_false]
      exact ih h'

theorem containsKey_eq_mem (d : Catalog) (c : String) :
    containsKey d c = true ↔ c ∈ d.map Prod.fst := by
  simp only [containsKey, List.any_eq_true, List.mem_map, beq_iff_eq]

theorem add_hero_keys (d : Catalog) (cls hero : String) :
    (add_hero d cls hero).map Prod.fst =
      if containsKey d cls then d.map Prod.fst else d.map Prod.fst ++ [cls] := by
  unfold add_hero
  by_cases hc : containsKey d cls
  · rw [if_pos hc, if_pos hc, List.map_map]
    apply List.map_congr_left
    intro p _
    by_cases hp : p.1 = cls <;> simp [hp]
  · rw [if_neg hc, if_neg hc]
    simp

theorem add_hero_get (d : Catalog) (cls hero c : String) :
    (dictGet (add_hero d cls hero) c).getD [] =
      if c = cls then (dictGet d c).getD [] ++ [hero]
      else (dictGet d c).getD [] := by
  unfold add_hero
  by_cases hc : containsKey d cls
  · rw [if_pos hc]
    by_cases hcc : c = cls
    · subst hcc
      have hsome : (dictGet d c).isSome := by
        rw [← containsKey_isSome]
        exact hc
      rcases Option.isSome_iff_exists.mp hsome with ⟨l, hl⟩
      rw [dictGet_map_add_eq d c hero hl, hl, if_pos rfl]
      simp
    · rw [dictGet_map_add_ne d cls hero c hcc, if_neg hcc]
  · rw [if_neg hc]
    have hcf : containsKey d cls = false := by
      revert hc
      cases containsKey d cls <;> simp
    by_cases hcc : c = cls
    · subst hcc
      have hall : ∀ x ∈ d, ¬((x.1 == c) = true) := by
        intro x hx
        exact (List.any_eq_false.mp hcf) x hx
      have hfind : List.find? (fun p => p.1 == c) d = none :=
        List.find?_eq_none.mpr hall
      unfold dictGet
      rw [List.find?_append, hfind, if_pos rfl]
      simp [List.find?_cons]
    · have hbf : (cls == c) = false := by
        rw [beq_eq_false_iff_ne]
        exact fun e => hcc e.symm
      unfold dictGet
      rw [List.find?_append, if_neg hcc]
      simp [List.find?_cons, hbf]

theorem build_catalog_from_keys (pairs : List (String × String)) :
    ∀ d0 : Catalog, (pairs.foldl (fun d p => add_hero d p.2 p.1) d0).map Prod.fst =
      first_occurrences_from (d0.map Prod.fst) (pairs.map Prod.snd) := by
  induction pairs with
  | nil =>
    intro d0
    rfl
  | cons q rest ih =>
    intro d0
    simp only [List.foldl_cons, List.map_cons]
    rw [ih]
    unfold first_occurrences_from
    simp only [List.foldl_cons]
    congr 1
    rw [add_hero_keys]
    by_cases hc : containsKey d0 q.2
    · rw [if_pos hc, if_pos ((containsKey_eq_mem _ _).mp hc)]
    · rw [if_neg hc, if_neg (fun hm => hc ((containsKey_eq_mem _ _).mpr hm))]

theorem build_catalog_from_get (pairs : List (String × String)) :
    ∀ (d0 : Catalog) (c : String),
      (dictGet (pairs.foldl (fun d p => add_hero d p.2 p.1) d0) c).getD [] =
        (dictGet d0 c).getD [] ++ (pairs.filter (fun q => q.2 == c)).map Prod.fst := by
  induction pairs with
  | nil =>
    intro d0 c
    simp
  | cons q rest ih =>
    intro d0 c
    simp only [List.foldl_cons]
    rw [ih, add_hero_get]
    by_cases hqc : c = q.2
    · rw [if_pos hqc]
      have hb : (q.2 == c) = true := by simp [hqc]
      simp [List.filter_cons, hb, List.append_assoc]
    · rw [if_neg hqc]
      have hb : (q.2 == c) = false := by
        rw [beq_eq_false_iff_ne]
        exact fun e => hqc e.symm
      simp only [List.filter_cons, hb, Bool.false_eq_true, if_false]

theorem first_occurrences_from_nodup (cs : List String) :
    ∀ acc : List String, acc.Nodup → (first_occurrences_from acc cs).Nodup := by
  induction cs with
  | nil =>
    intro acc h
    exact h
  | cons c rest ih =>
    intro acc h
    unfold first_occurrences_from
    simp only [List.foldl_cons]
    apply ih
    by_cases hm : c ∈ acc
    · rw [if_pos hm]
      exact h
    · rw [if_neg hm]
      simp [List.nodup_append, h, hm]

theorem build_catalog_keys_nodup (pairs : List (String × String)) :
    ((build_catalog pairs).map Prod.fst).Nodup := by
  unfold build_catalog
  rw [build_catalog_from_keys]
  exact first_occurrences_from_nodup _ _ (by simp)

/-- C4 (counterexample): on the well-formed line `"A, Mage \n"` (one delimiter,
hero `"A"`, class text `"Mage "` before the newline) the source strips only the
newline — `heroes[1].strip('\n')` — so the stored class key is `"Mage "` with
its trailing space, whereas the claim's reading (whitespace and newline
stripped) yields `"Mage"`. -/
theorem C4_class_whitespace_not_stripped :
    parse_line "A, Mage \n" = some ("A", "Mage ") ∧
    spec_parse_line "A, Mage \n" = some ("A", "Mage") ∧
    ("Mage " : String) ≠ "Mage" ∧
    parse_hero_lines ["A, Mage \n"] = some [("Mage ", ["A"])] :=
  ⟨by decide, by decide, by decide, by decide⟩

/-- C4 (amended): for every input file whose lines all contain the `", "`
delimiter, `load_heroes` takes each line's hero name verbatim as the text
before the first delimiter and its class as the second `", "`-segment with
only leading/trailing newline characters stripped (other whitespace is kept);
the resulting catalog lists, under each class, exactly that class's heroes in
file order, its class-key order is the classes' first-occurrence order in the
file, and its keys are distinct. -/
theorem C4_load_structure (lines : List String) (pairs : List (String × String))
    (hp : lines.mapM parse_line = some pairs) :
    parse_hero_lines lines = some (build_catalog pairs) ∧
    (build_catalog pairs).map Prod.fst = first_occurrences (pairs.map Prod.snd) ∧
    ((build_catalog pairs).map Prod.fst).Nodup ∧
    ∀ c, (dictGet (build_catalog pairs) c).getD [] =
      (pairs.filter (fun q => q.2 == c)).map Prod.fst := by
  refine ⟨?_, ?_, build_catalog_keys_nodup pairs, ?_⟩
  · unfold parse_hero_lines
    rw [hp]
    rfl
  · exact build_catalog_from_keys pairs []
  · intro c
    have h := build_catalog_from_get pairs [] c
    simpa using h

theorem C4_load_structure_witness :
    parse_hero_lines ["A, W\n", "B, M\n", "C, W\n"] =
      some (build_catalog [("A", "W"), ("B", "M"), ("C", "W")]) ∧
    (dictGet (build_catalog [("A", "W"), ("B", "M"), ("C", "W")]) "W").getD [] =
      (([("A", "W"), ("B", "M"), ("C", "W")] : List (String × String)).filter
        (fun q => q.2 == "W")).map Prod.fst :=
  ⟨(C4_load_structure ["A, W\n", "B, M\n", "C, W\n"]
      [("A", "W"), ("B", "M"), ("C", "W")] (by decide)).1,
   (C4_load_structure ["A, W\n", "B, M\n", "C, W\n"]
      [("A", "W"), ("B", "M"), ("C", "W")] (by decide)).2.2.2 "W"⟩

theorem del_key_contains_false {d : Catalog} {k : String}
    (hnd : (d.map Prod.fst).Nodup) : containsKey (del_key d k) k = false := by
  induction d with
  | nil => rfl
  | cons p rest ih =>
    have hnd' : (rest.map Prod.fst).Nodup := (List.nodup_cons.mp (by simpa using hnd)).2
    by_cases hp : p.1 = k
    · have hb : (p.1 == k) = true := by simp [hp]
      simp only [del_key, List.eraseP_cons, hb, cond_true]
      have hk : k ∉ rest.map Prod.fst := by
        rw [← hp]
        exact (List.nodup_cons.mp (by simpa using hnd)).1
      cases hck : containsKey rest k
      · rfl
      · exact absurd ((containsKey_eq_mem rest k).mp hck) hk
    · have hb : (p.1 == k) = false := by
        rw [beq_eq_false_iff_ne]
        exact hp
      simp only [del_key, List.eraseP_cons, hb, cond_false, containsKey,
        List.any_cons, Bool.false_or]
      exact ih hnd'

theorem del_key_of_not_contains {d : Catalog} {k : String}
    (h : containsKey d k = false) : del_key d k = d := by
  unfold containsKey at h
  unfold del_key
  apply List.eraseP_of_forall_not
  intro a ha
  simp only [List.any_eq_false] at h
  simp [h a ha]

theorem special_heroes_removed {d : Catalog} {k h : String}
    (hnd : (allHeroes d).Nodup)
    (hh : h ∈ (dictGet d k).getD []) :
    h ∉ allHeroes (del_key d k) := by
  induction d with
  | nil => simp [dictGet] at hh
  | cons p rest ih =>
    rw [allHeroes_cons] at hnd
    rcases List.nodup_append.mp hnd with ⟨hndp, hndrest, hdisj⟩
    by_cases hp : p.1 = k
    · have hb : (p.1 == k) = true := by simp [hp]
      have hget : dictGet (p :: rest) k = some p.2 := by
        unfold dictGet
        simp [List.find?_cons, hb]
      rw [hget] at hh
      simp only [Option.getD_some] at hh
      simp only [del_key, List.eraseP_cons, hb, cond_true]
      exact fun hmem => hdisj hh hmem
    · have hb : (p.1 == k) = false := by
        rw [beq_eq_false_iff_ne]
        exact hp
      have hget : dictGet (p :: rest) k = dictGet rest k := by
        unfold dictGet
        simp [List.find?_cons, hb]
      rw [hget] at hh
      simp only [del_key, List.eraseP_cons, hb, cond_false]
      rw [allHeroes_cons]
      intro hmem
      rcases List.mem_append.mp hmem with hm | hm
      · rcases hdg : dictGet rest k with _ | l
        · rw [hdg] at hh
          simp at hh
        · rw [hdg] at hh
          simp only [Option.getD_some] at hh
          exact hdisj hm (dictGet_mem_allHeroes hdg hh)
      · exact ih hndrest hh hm

theorem disallow_special_eval (p : Option String) (sz : Int) (b : Bool) (d : Catalog) :
    disallow_special ⟨p, some d, sz, b⟩ = ⟨p, some (del_key d "Special"), sz, false⟩ := by
  have hcfg1 :
      (if (Config.mk p (some d) sz b).allow_special_class then
        { Config.mk p (some d) sz b with allow_special_class := false }
      else Config.mk p (some d) sz b) = Config.mk p (some d) sz false := by
    cases b <;> simp
  unfold disallow_special
  rw [hcfg1]
  by_cases hcond : (!d.isEmpty && containsKey d "Special") = true
  · simp only [hcond, if_true]
  · simp only [hcond, Bool.false_eq_true, if_false]
    rcases Bool.and_eq_false_iff.mp (Bool.not_eq_true _ ▸ hcond) with hemp | hcont
    · have hde : d = [] := by
        cases d with
        | nil => rfl
        | cons q t => simp at hemp
      subst hde
      rfl
    · rw [del_key_of_not_contains hcont]

theorem disallow_special_eval_none (p : Option String) (sz : Int) (b : Bool) :
    disallow_special ⟨p, none, sz, b⟩ = ⟨p, none, sz, false⟩ := by
  unfold disallow_special
  cases b <;> simp

theorem load_heroes_success {isFile : String → Bool} {readLines : String → List String}
    {cfg cfg' : Config}
    (h : load_heroes isFile readLines cfg = (none, cfg')) :
    ∃ d, cfg'.possible_heroes = some d ∧ (d.map Prod.fst).Nodup ∧
      cfg'.allow_special_class = cfg.allow_special_class := by
  unfold load_heroes at h
  rcases hpath : cfg.hero_file_path with _ | p <;> rw [hpath] at h
  · simp at h
  · by_cases hemp : p.isEmpty
    · simp [hemp] at h
    · by_cases hf : isFile p
      · rcases hparse : parse_hero_lines (readLines p) with _ | d <;>
          simp [hemp, hf, hparse] at h
        rcases Option.map_eq_some'.mp hparse with ⟨pairs, -, hbuild⟩
        subst h
        refine ⟨d, rfl, ?_, rfl⟩
        rw [← hbuild]
        exact build_catalog_keys_nodup pairs
      · simp [hemp, hf] at h

theorem sessionDraft_picks {s0 s : Session} {picks : List (String × String)}
    (h : SessionDraft s0 picks s) :
    ∀ q ∈ picks,
      (q.1 ∈ s0.team1.possible_classes ∨ q.1 ∈ s0.team2.possible_classes) ∧
      q.2 ∈ allHeroes s0.cat := by
  induction h with
  | nil =>
    intro q hq
    simp at hq
  | @cons s0 s1 s2 kh picks hstep hrest ih =>
    rcases kh with ⟨key, hero⟩
    intro q hq
    rcases List.mem_cons.mp hq with hq | hq
    · subst hq
      cases hstep with
      | left hds =>
        obtain ⟨hkey, -, -, -, -, -, hhero⟩ := draftStep_fields hds
        exact ⟨Or.inl hkey, hhero⟩
      | right hds =>
        obtain ⟨hkey, -, -, -, -, -, hhero⟩ := draftStep_fields hds
        exact ⟨Or.inr hkey, hhero⟩
    · have hq' := ih q hq
      cases hstep with
      | left hds =>
        obtain ⟨-, hclasses, -, -, -, -, -⟩ := draftStep_fields hds
        dsimp only at hclasses
        rcases hq' with ⟨hcls, hhero⟩
        dsimp only at hcls hhero
        refine ⟨?_, draftStep_allHeroes_subset hds _ hhero⟩
        rcases hcls with hl | hr
        · rw [hclasses] at hl
          exact Or.inl (List.erase_subset _ _ hl)
        · exact Or.inr hr
      | right hds =>
        obtain ⟨-, hclasses, -, -, -, -, -⟩ := draftStep_fields hds
        dsimp only at hclasses
        rcases hq' with ⟨hcls, hhero⟩
        dsimp only at hcls hhero
        refine ⟨?_, draftStep_allHeroes_subset hds _ hhero⟩
        rcases hcls with hl | hr
        · exact Or.inl hl
        · rw [hclasses] at hr
          exact Or.inr (List.erase_subset _ _ hr)

/-- C6: requesting special-class exclusion clears the allow flag and replaces
a loaded catalog with one whose `"Special"` entry is deleted (so neither the
class nor, under the catalog's hero-uniqueness invariant, any of its heroes
remains); when the request precedes loading, the first team construction
deletes any lingering `"Special"` key, so the constructed team's eligible
classes never include it; a repeated request changes nothing; and no draw by
any team along any draft sequence ever selects the `"Special"` class or one of
its former heroes. -/
theorem C6_special_class_exclusion :
    (∀ (p : Option String) (sz : Int) (b : Bool) (d : Catalog),
      (disallow_special ⟨p, some d, sz, b⟩).allow_special_class = false ∧
      (disallow_special ⟨p, some d, sz, b⟩).possible_heroes =
        some (del_key d "Special") ∧
      ((d.map Prod.fst).Nodup →
        containsKey (del_key d "Special") "Special" = false)) ∧
    (∀ (d : Catalog) (h : String), (allHeroes d).Nodup →
      h ∈ (dictGet d "Special").getD [] → h ∉ allHeroes (del_key d "Special")) ∧
    (∀ (isFile : String → Bool) (readLines : String → List String) (cfg : Config)
       (nm : String) (r : Nat) (e : Option PyError) (cfg' : Config) (t : Team),
      cfg.possible_heroes = none →
      cfg.allow_special_class = false →
      team_init isFile readLines cfg nm r = (e, cfg', some t) →
      ∃ dd, cfg'.possible_heroes = some dd ∧
        t.possible_classes = dd.map Prod.fst ∧
        containsKey dd "Special" = false ∧
        "Special" ∉ t.possible_classes) ∧
    (∀ cfg : Config,
      (∀ d, cfg.possible_heroes = some d → (d.map Prod.fst).Nodup) →
      disallow_special (disallow_special cfg) = disallow_special cfg) ∧
    (∀ (d : Catalog) (s0 s : Session) (picks : List (String × String)),
      SessionDraft s0 picks s →
      s0.cat = del_key d "Special" →
      (allHeroes d).Nodup →
      "Special" ∉ s0.team1.possible_classes →
      "Special" ∉ s0.team2.possible_classes →
      ∀ q ∈ picks, q.1 ≠ "Special" ∧ q.2 ∈ allHeroes s0.cat ∧
        q.2 ∉ (dictGet d "Special").getD []) := by
  refine ⟨?_, ?_, ?_, ?_, ?_⟩
  · intro p sz b d
    rw [disallow_special_eval]
    exact ⟨rfl, rfl, fun hnd => del_key_contains_false hnd⟩
  · intro d h hnd hh
    exact special_heroes_removed hnd hh
  · intro isFile readLines cfg nm r e cfg' t hph hallow h
    unfold team_init at h
    rw [hph] at h
    rcases hload : load_heroes isFile readLines cfg with ⟨e1, cfg1⟩
    rw [hload] at h
    cases e1 with
    | some e1 => simp at h
    | none =>
      rcases load_heroes_success hload with ⟨d, hd, hndk, hallow'⟩
      dsimp only at h
      rw [hd] at h
      dsimp only at h
      rw [hallow', hallow] at h
      simp only [Bool.not_false, Bool.true_and] at h
      by_cases hcont : containsKey d "Special" = true
      · simp only [hcont, if_true] at h
        simp only [Prod.mk.injEq, Option.some.injEq] at h
        refine ⟨del_key d "Special", ?_, ?_, del_key_contains_false hndk, ?_⟩
        · rw [← h.2.1]
        · rw [← h.2.2]
        · rw [← h.2.2]
          intro hmem
          have hck := (containsKey_eq_mem _ _).mpr hmem
          rw [del_key_contains_false hndk] at hck
          exact absurd hck (by simp)
      · have hcf : containsKey d "Special" = false := by
          cases hc2 : containsKey d "Special"
          · rfl
          · exact absurd hc2 hcont
        simp only [hcf, Bool.false_eq_true, if_false] at h
        simp only [Prod.mk.injEq, Option.some.injEq] at h
        refine ⟨d, ?_, ?_, hcf, ?_⟩
        · rw [← h.2.1]
        · rw [← h.2.2]
        · rw [← h.2.2]
          intro hmem
          have hck := (containsKey_eq_mem _ _).mpr hmem
          rw [hcf] at hck
          exact absurd hck (by simp)
  · intro cfg hnd
    rcases cfg with ⟨p, ph, sz, b⟩
    cases ph with
    | none => rw [disallow_special_eval_none, disallow_special_eval_none]
    | some d =>
      rw [disallow_special_eval, disallow_special_eval]
      have hnd' := hnd d rfl
      rw [del_key_of_not_contains (del_key_contains_false hnd')]
  · intro d s0 s picks hD hcat hnd h1 h2 q hq
    have hp := sessionDraft_picks hD q hq
    refine ⟨?_, hp.2, ?_⟩
    · rcases hp.1 with hl | hr
      · exact fun he => h1 (he ▸ hl)
      · exact fun he => h2 (he ▸ hr)
    · intro hmem
      have hnot := special_heroes_removed hnd hmem
      rw [← hcat] at hnot
      exact hnot hp.2

theorem C6_special_class_exclusion_witness :
    (disallow_special ⟨none, some [("Special", ["X"]), ("W", ["A"])], 3, true⟩).possible_heroes =
      some (del_key [("Special", ["X"]), ("W", ["A"])] "Special") ∧
    containsKey (del_key [("Special", ["X"]), ("W", ["A"])] "Special") "Special" = false ∧
    "X" ∉ allHeroes (del_key [("Special", ["X"]), ("W", ["A"])] "Special") :=
  ⟨(C6_special_class_exclusion.1 none 3 true [("Special", ["X"]), ("W", ["A"])]).2.1,
   (C6_special_class_exclusion.1 none 3 true [("Special", ["X"]), ("W", ["A"])]).2.2
     (by decide),
   C6_special_class_exclusion.2.1 [("Special", ["X"]), ("W", ["A"])] "X"
     (by decide) (by decide)⟩
end ArenaHeroChooser
